import Mathlib

/-!
Verification development for the HCDP repository (healthcare dynamic-programming
models).  The Python sources `src/models/Healthcare_DP.py` (sigmoid variant),
`src/models/HealthcareDP_NewDegen.py` (deficit-scaled variant) and
`src/models/HealthcareDP_Stoch.py` (stochastic-shock variant) are embedded
shallowly:

* Python ints are `ℤ`, Python floats are `ℚ` (exact field arithmetic; the
  solvers only add, multiply, compare and round these values).  The two
  sigmoid strategy formulas that use `math.exp` are embedded over `ℝ` with
  `Real.exp`.
* The memoization caches (`self.cache`, `self.EnumCache`) only ever store the
  value that the surrounding computation would return, so the solvers are
  embedded as the pure functions they memoize; "caches and returns x" becomes
  "returns x".
* The solvers' recursion strictly increases the period and stops past the
  horizon, so it is realised by structural recursion on the fuel
  `(numRounds + 1 - period).toNat`; a fuel-irrelevance lemma and an unfolding
  equation recover the exact recursive equation of the Python code.
* The heterogeneous tuples Python uses for solver results (`(0, 0)` pairs
  versus `(state, total, immediate)` triples) are embedded as explicit sum
  types, and dynamically ill-typed operations (subscripting an `int`) are
  embedded as `Option`-valued with `none` for a raised exception.

All HealthCareDP classes receive their four strategy objects at construction
and call them only through their signatures, so the embedded solvers are
parameterized by the strategy functions, exactly as the classes are.
-/

namespace HCDP

/-- `DPState = collections.namedtuple('DPState', 'period, health, cash')`. -/
structure DPState where
  period : ℤ
  health : ℤ
  cash : ℤ
  deriving DecidableEq, Repr

/-- `Investment = collections.namedtuple('Investment',
    'healthExpenditure, lifeExpenditure, cashRemaining')`. -/
structure Investment where
  healthExpenditure : ℤ
  lifeExpenditure : ℤ
  cashRemaining : ℤ
  deriving DecidableEq, Repr

/-! ### Python helpers -/

/-- Python `range(n)` over integers: `[0, 1, ..., n-1]`, empty for `n ≤ 0`. -/
def pyRange (n : ℤ) : List ℤ :=
  (List.range n.toNat).map Int.ofNat

/-- Python `range(lo, hi)` over integers, empty for `hi ≤ lo`. -/
def pyRange2 (lo hi : ℤ) : List ℤ :=
  (List.range (hi - lo).toNat).map (fun i => lo + Int.ofNat i)

/-- Python `range(0, stop, 10)` over integers: `[0, 10, ...]`, each `< stop`. -/
def pyRangeStep10 (stop : ℤ) : List ℤ :=
  (List.range ((stop.toNat + 9) / 10)).map (fun i => 10 * Int.ofNat i)

theorem mem_pyRange {n x : ℤ} : x ∈ pyRange n ↔ 0 ≤ x ∧ x < n := by
  unfold pyRange
  simp only [List.mem_map, List.mem_range, Int.ofNat_eq_coe]
  constructor
  · rintro ⟨i, hi, rfl⟩; omega
  · rintro ⟨h0, hn⟩; exact ⟨x.toNat, by omega, by omega⟩

theorem mem_pyRange2 {lo hi x : ℤ} : x ∈ pyRange2 lo hi ↔ lo ≤ x ∧ x < hi := by
  unfold pyRange2
  simp only [List.mem_map, List.mem_range, Int.ofNat_eq_coe]
  constructor
  · rintro ⟨i, hi, rfl⟩; omega
  · rintro ⟨h0, hn⟩; exact ⟨(x - lo).toNat, by omega, by omega⟩

theorem mem_pyRangeStep10 {stop x : ℤ} (h : x ∈ pyRangeStep10 stop) :
    0 ≤ x ∧ x < stop := by
  unfold pyRangeStep10 at h
  simp only [List.mem_map, List.mem_range, Int.ofNat_eq_coe] at h
  obtain ⟨i, hi, rfl⟩ := h
  have h10 : (0:ℕ) < 10 := by norm_num
  have h2 : (i + 1) * 10 ≤ stop.toNat + 9 := (Nat.le_div_iff_mul_le h10).mp hi
  omega

/-- The accumulating "append if not already present" loop that Python's
`StateEnum` uses to deduplicate `(state, enjoyment)` pairs. -/
def pyDedupAux [DecidableEq α] : List α → List α → List α
  | acc, [] => acc
  | acc, x :: xs => if x ∈ acc then pyDedupAux acc xs else pyDedupAux (acc ++ [x]) xs

/-- Order-preserving first-occurrence deduplication, as in `StateEnum`. -/
def pyDedup [DecidableEq α] (l : List α) : List α := pyDedupAux [] l

theorem mem_pyDedupAux [DecidableEq α] {x : α} :
    ∀ {l acc : List α}, (x ∈ pyDedupAux acc l ↔ x ∈ acc ∨ x ∈ l)
  | [], acc => by simp [pyDedupAux]
  | y :: ys, acc => by
    unfold pyDedupAux
    by_cases h : y ∈ acc
    · rw [if_pos h, mem_pyDedupAux]
      constructor
      · rintro (h1 | h1) <;> simp [h1]
      · rintro (h1 | h1)
        · exact Or.inl h1
        · rcases List.mem_cons.mp h1 with rfl | h2
          · exact Or.inl h
          · exact Or.inr h2
    · rw [if_neg h, mem_pyDedupAux]
      simp only [List.mem_append, List.mem_singleton, List.mem_cons]
      tauto

theorem mem_pyDedup [DecidableEq α] {x : α} {l : List α} :
    x ∈ pyDedup l ↔ x ∈ l := by
  unfold pyDedup; rw [mem_pyDedupAux]; simp

/-- Python 3 `round(x)` to an integer: nearest, ties to even (the inputs are
modeled exactly as rationals). -/
def pyRoundInt (q : ℚ) : ℤ :=
  let f := ⌊q⌋
  let r := q - f
  if r < 1/2 then f
  else if 1/2 < r then f + 1
  else if f % 2 = 0 then f else f + 1

/-- Python `round(x, 1)`: round to one decimal place, ties to even. -/
def pyRound1 (q : ℚ) : ℚ := (pyRoundInt (10 * q) : ℚ) / 10

/-- Python `int(x)` on a rational value: truncation toward zero. -/
def pyTrunc (q : ℚ) : ℤ := if q < 0 then ⌈q⌉ else ⌊q⌋

/-- Python `a / b` on floats: raises `ZeroDivisionError` (modeled `none`) for
`b = 0`. -/
def pyDiv (a b : ℚ) : Option ℚ := if b = 0 then none else some (a / b)

/-! ### Investment enumerators

`Healthcare_DP.py` / `HealthcareDP_Stoch.py` lines 222-245 / 175-198
(plateau-pruned policy) and `HealthcareDP_NewDegen.py` lines 294-328
(exhaustive-banked policy).  `EnumCache` is a pure memo of these functions. -/

/-- The inner consumption window of the plateau-pruned enumerator:
`for lifeExpenditure in range(max(cash - healthExpenditure - 20, 0),
cash + 1 - healthExpenditure)`. -/
def windowInvs (cash he : ℤ) : List Investment :=
  (pyRange2 (max (cash - he - 20) 0) (cash + 1 - he)).map
    (fun le => ⟨he, le, cash - he - le⟩)

/-- One iteration of the plateau-pruned outer loop, carrying the `prev`
resource-gain and the accumulated investment list. -/
def invEnumStep (regen : ℤ → ℤ) (cash : ℤ) (st : ℤ × List Investment) (he : ℤ) :
    ℤ × List Investment :=
  let hr := regen he
  if hr = st.1 then st else (hr, st.2 ++ windowInvs cash he)

/-- `HealthCareDP.InvestmentEnum` of the sigmoid and stochastic variants
(plateau-pruned policy), parameterized by the regeneration strategy the class
was constructed with. -/
def InvestmentEnum (regen : ℤ → ℤ) (cash : ℤ) : List Investment :=
  ((pyRange (cash + 1)).foldl (invEnumStep regen cash) (-1, [])).2

/-- The `prev` value held by the plateau-pruned loop after processing
health-expenditures `0, ..., n-1` (initially the sentinel `-1`). -/
def prevAfter (regen : ℤ → ℤ) : ℕ → ℤ
  | 0 => -1
  | n + 1 => let p := prevAfter regen n; if regen n = p then p else regen n

/-- `HealthCareDP.InvestmentEnum` of the NewDegen variant (exhaustive-banked
policy).  The `health` argument is received but, as in the source, unused. -/
def InvestmentEnumND (cash health : ℤ) : List Investment :=
  (pyRange (cash + 1)).flatMap (fun he =>
    (pyRangeStep10 (min 111 (cash - he + 1))).map
      (fun bankedCash => ⟨he, cash - he - bankedCash, bankedCash⟩))

theorem invEnum_foldl_characterization (regen : ℤ → ℤ) (cash : ℤ) :
    ∀ n : ℕ,
      ((List.range n).map Int.ofNat).foldl (invEnumStep regen cash) (-1, [])
        = (prevAfter regen n,
           ((List.range n).filter
              (fun (he : ℕ) => regen (Int.ofNat he) ≠ prevAfter regen he)).flatMap
             (fun (he : ℕ) => windowInvs cash (Int.ofNat he)))
  | 0 => by simp [prevAfter]
  | n + 1 => by
    rw [List.range_succ, List.map_append, List.foldl_append,
      invEnum_foldl_characterization regen cash n, List.filter_append,
      List.flatMap_append]
    simp only [List.map_cons, List.map_nil, List.foldl_cons, List.foldl_nil]
    by_cases h : regen n = prevAfter regen n
    · simp [invEnumStep, prevAfter, h]
    · simp [invEnumStep, prevAfter, h]

theorem mem_InvestmentEnum {regen : ℤ → ℤ} {cash : ℤ} {inv : Investment} :
    inv ∈ InvestmentEnum regen cash
      ↔ ∃ he : ℕ, (he : ℤ) < cash + 1
          ∧ regen (Int.ofNat he) ≠ prevAfter regen he
          ∧ inv ∈ windowInvs cash (Int.ofNat he) := by
  unfold InvestmentEnum pyRange
  rw [invEnum_foldl_characterization]
  simp only [List.mem_flatMap, List.mem_filter, List.mem_range, decide_not,
    Bool.not_eq_eq_eq_not, Bool.not_true, decide_eq_false_iff_not,
    Int.ofNat_eq_coe]
  constructor
  · rintro ⟨he, ⟨hlt, hne⟩, hmem⟩
    exact ⟨he, by omega, hne, hmem⟩
  · rintro ⟨he, hlt, hne, hmem⟩
    exact ⟨he, ⟨by omega, hne⟩, hmem⟩

theorem mem_windowInvs {cash he : ℤ} {inv : Investment} :
    inv ∈ windowInvs cash he
      ↔ inv.healthExpenditure = he
        ∧ max (cash - he - 20) 0 ≤ inv.lifeExpenditure
        ∧ inv.lifeExpenditure < cash + 1 - he
        ∧ inv.cashRemaining = cash - he - inv.lifeExpenditure := by
  unfold windowInvs
  simp only [List.mem_map]
  constructor
  · rintro ⟨le, hle, rfl⟩
    rcases mem_pyRange2.mp hle with ⟨h1, h2⟩
    exact ⟨rfl, h1, h2, rfl⟩
  · rintro ⟨h0, h1, h2, h3⟩
    refine ⟨inv.lifeExpenditure, mem_pyRange2.mpr ⟨h1, h2⟩, ?_⟩
    cases inv
    simp_all

/-! ### Strategy functions

The four strategy classes of `Healthcare_DP.py` (sigmoid regeneration,
exponential enjoyment, linear-plus-threshold degeneration, proportional
harvest) and the guarded deficit-scaled variants of
`HealthcareDP_NewDegen.py`.  The stochastic variant imports its strategy
classes from a `strategies` package that is not part of this repository's
sources, so its solver is only ever used here with abstract strategy
parameters. -/

/-- Python `int(x)` on a real value: truncation toward zero. -/
noncomputable def pyTruncR (x : ℝ) : ℤ := if x < 0 then ⌈x⌉ else ⌊x⌋

/-- `RegenerationStrategy.HealthRegained` of `Healthcare_DP.py` (lines 46-54):
the sigmoid diminishing-returns formula, evaluated unconditionally — the class
has no guard for non-positive investments. -/
noncomputable def HealthRegainedSigmoid (gamma sigma r investment : ℝ) : ℤ :=
  pyTruncR (gamma * ((1 - Real.exp (-sigma * investment)) /
    (1 + Real.exp (-sigma * (investment - r)))))

/-- `LifeEnjoymentStrategy.LifeEnjoyment` of `Healthcare_DP.py` (lines 72-79):
evaluated unconditionally — the class has no guard for non-positive
investments. -/
noncomputable def LifeEnjoymentSigmoid (alpha beta mu c investment currentHealth : ℝ) : ℝ :=
  c * (beta * (currentHealth / 100) + mu) * (1 - Real.exp (-alpha * investment))

/-- `DegenerationStrategy.HealthDegeneration` of `Healthcare_DP.py`
(lines 95-104): linear decay, slope doubled past the horizon, clamped at 0. -/
def HealthDegenerationSig (intercept slope : ℚ) (horizon : ℤ)
    (currentHealth currentRound : ℤ) : ℤ :=
  if currentRound ≤ horizon then
    max (currentHealth - pyRoundInt (intercept + slope * currentRound)) 0
  else
    max (currentHealth - pyRoundInt (intercept + 2 * slope * currentRound)) 0

/-- `HarvestStrategy.HarvestAmount` (`Healthcare_DP.py` lines 116-120 and
`HealthcareDP_NewDegen.py` lines 144-154): money earned proportional to
health, rounded to an integer. -/
def HarvestAmount (maxHarvest : ℚ) (currentHealth : ℤ) : ℤ :=
  pyRoundInt (maxHarvest * currentHealth / 100)

/-- `RegenerationStrategy.HealthRegained` of `HealthcareDP_NewDegen.py`
(lines 46-66): guarded to return 0 for `investment ≤ 0` before the
deficit-scaled formula is evaluated. -/
def HealthRegainedND (d k : ℚ) (investment health : ℤ) : ℤ :=
  if investment ≤ 0 then 0
  else
    max (pyTrunc ((100 - (health : ℚ)) *
      (((investment : ℚ) - d * (1 - (health : ℚ) / 100)) / ((investment : ℚ) + k)))) 0

/-- `LifeEnjoymentStrategy.LifeEnjoyment` of `HealthcareDP_NewDegen.py`
(lines 81-100): guarded to return 0 for `investment ≤ 0` before the
hyperbolic formula is evaluated. -/
def LifeEnjoymentND (j : ℚ) (investment currentHealth : ℤ) : ℚ :=
  if investment ≤ 0 then 0
  else (currentHealth : ℚ) * ((investment : ℚ) / ((investment : ℚ) + j))

/-- `DegenerationStrategy.HealthDegeneration` of `HealthcareDP_NewDegen.py`
(lines 115-132): fixed decay with +50 spikes on rounds 3 and 9, clamped. -/
def HealthDegenerationND (degen : ℤ) (currentHealth currentRound : ℤ) : ℤ :=
  if currentRound = 3 ∨ currentRound = 9 then max (currentHealth - (degen + 50)) 0
  else max (currentHealth - degen) 0

/-! ### Transition, investment application, state enumeration -/

/-- `HealthCareDP.Transition` (all three variants): increment the period,
degenerate health at the new round, add the harvest of the old health. -/
def Transition (degen : ℤ → ℤ → ℤ) (harvest : ℤ → ℤ) (s : DPState) : DPState :=
  ⟨s.period + 1, degen s.health (s.period + 1), s.cash + harvest s.health⟩

/-- `HealthCareDP.Invest` of the sigmoid/stochastic variants: cap regenerated
health at 100, move the banked remainder into cash, score the enjoyment of
the consumption expenditure at the post-regeneration health. -/
def Invest (regen : ℤ → ℤ) (enjoy : ℤ → ℤ → ℚ) (s : DPState) (inv : Investment) :
    DPState × ℚ :=
  let endHealth := min 100 (s.health + regen inv.healthExpenditure)
  (⟨s.period, endHealth, inv.cashRemaining⟩, enjoy inv.lifeExpenditure endHealth)

/-- `HealthCareDP.Invest` of the NewDegen variant: the regeneration strategy
additionally receives the current health. -/
def InvestND (regen : ℤ → ℤ → ℤ) (enjoy : ℤ → ℤ → ℚ) (s : DPState)
    (inv : Investment) : DPState × ℚ :=
  let endHealth := min 100 (s.health + regen inv.healthExpenditure s.health)
  (⟨s.period, endHealth, inv.cashRemaining⟩, enjoy inv.lifeExpenditure endHealth)

/-- `HealthCareDP.StateEnum` of the sigmoid/stochastic variants: apply every
enumerated investment and deduplicate the `(state, enjoyment)` outcomes. -/
def StateEnum (regen : ℤ → ℤ) (enjoy : ℤ → ℤ → ℚ) (s : DPState) :
    List (DPState × ℚ) :=
  pyDedup ((InvestmentEnum regen s.cash).map (Invest regen enjoy s))

/-- `HealthCareDP.StateEnum` of the NewDegen variant. -/
def StateEnumND (regen : ℤ → ℤ → ℤ) (enjoy : ℤ → ℤ → ℚ) (s : DPState) :
    List (DPState × ℚ) :=
  pyDedup ((InvestmentEnumND s.cash s.health).map (InvestND regen enjoy s))

theorem stateEnum_period (regen : ℤ → ℤ) (enjoy : ℤ → ℤ → ℚ) :
    ∀ ns x, x ∈ StateEnum regen enjoy ns → x.1.period = ns.period := by
  intro ns x hx
  rcases List.mem_map.mp (mem_pyDedup.mp hx) with ⟨inv, _, rfl⟩
  rfl

theorem stateEnumND_period (regen : ℤ → ℤ → ℤ) (enjoy : ℤ → ℤ → ℚ) :
    ∀ ns x, x ∈ StateEnumND regen enjoy ns → x.1.period = ns.period := by
  intro ns x hx
  rcases List.mem_map.mp (mem_pyDedup.mp hx) with ⟨inv, _, rfl⟩
  rfl

/-! ### The candidate loop

All three solvers run the same loop over the enumerated
`(resultingState, enjoyment)` candidates: a candidate replaces the running
best exactly when `enjoyment + future > best[1]`, where the untouched
initialization — `(0, 0)` in the sigmoid variant, `(DPState(0,0,0), 0, 0)` in
NewDegen, `DPState(0, 0, -1)` in the stochastic variant — has `[1] = 0` in
every variant and is modeled by `none`. -/

/-- The `highestReturn[1]` lookup: 0 for the untouched initialization. -/
def optVal : Option (DPState × ℚ × ℚ) → ℚ
  | none => 0
  | some (_, v, _) => v

/-- The candidate loop shared by all `Solve` variants.  `g` is the future
value a recursive `Solve` call supplies for a candidate state. -/
def runLoop (g : DPState → ℚ) :
    Option (DPState × ℚ × ℚ) → List (DPState × ℚ) → Option (DPState × ℚ × ℚ)
  | acc, [] => acc
  | acc, c :: rest =>
      runLoop g
        (if optVal acc < c.2 + g c.1 then some (c.1, c.2 + g c.1, pyRound1 c.2)
         else acc) rest

theorem runLoop_congr (g h : DPState → ℚ) :
    ∀ {l : List (DPState × ℚ)} {acc}, (∀ c ∈ l, g c.1 = h c.1) →
      runLoop g acc l = runLoop h acc l
  | [], acc => by intro _; rfl
  | c :: rest, acc => by
    intro hgh
    unfold runLoop
    rw [hgh c (by simp), runLoop_congr g h (fun x hx => hgh x (by simp [hx]))]

/-! ### The deterministic solver core

`HealthCareDP.Solve` of `Healthcare_DP.py` (lines 247-278) and
`HealthcareDP_NewDegen.py` (lines 330-372), which differ only in the state
enumerator and in the initialization of `highestReturn`.  The recursion is
realised on the fuel `(numRounds + 1 - period).toNat`, which strictly
decreases along recursive calls; `detSolve_eq` below recovers the exact
recursive equation of the source. -/

/-- The heterogeneous result of the deterministic `Solve`: either the
untouched initialization pair `(0, 0)` of the sigmoid variant, or a
`(nextState, totalValue, immediateUtility)` triple. -/
inductive DetResult where
  | pair (a b : ℚ)
  | triple (st : DPState) (totalValue immediate : ℚ)
  deriving DecidableEq, Repr

/-- `result[1]`, the total value slot, defined for both tuple shapes. -/
def DetResult.val : DetResult → ℚ
  | .pair _ b => b
  | .triple _ v _ => v

/-- Fuel bound for the solver recursion from state `s`. -/
def solveFuel (numRounds : ℤ) (s : DPState) : ℕ := (numRounds + 1 - s.period).toNat

/-- Fuel-indexed deterministic `Solve`.  `SE` is the variant's state
enumerator, `z` the variant's `highestReturn` initialization (returned when no
candidate's total value beats 0). -/
def detSolveF (degen : ℤ → ℤ → ℤ) (harvest : ℤ → ℤ)
    (SE : DPState → List (DPState × ℚ)) (numRounds : ℤ) (z : DetResult) :
    ℕ → DPState → DetResult
  | 0, s =>
    let newState := Transition degen harvest s
    if numRounds < newState.period ∨ newState.health ≤ 0 then .triple newState 0 0
    else z
  | fuel + 1, s =>
    let newState := Transition degen harvest s
    if numRounds < newState.period ∨ newState.health ≤ 0 then .triple newState 0 0
    else
      match runLoop (fun c => (detSolveF degen harvest SE numRounds z fuel c).val)
          none (SE newState) with
      | none => z
      | some (st, tv, u) => .triple st tv u

/-- The deterministic `Solve`, with the fuel fixed at its bound. -/
def detSolve (degen : ℤ → ℤ → ℤ) (harvest : ℤ → ℤ)
    (SE : DPState → List (DPState × ℚ)) (numRounds : ℤ) (z : DetResult)
    (s : DPState) : DetResult :=
  detSolveF degen harvest SE numRounds z (solveFuel numRounds s) s

theorem detSolveF_congr {degen : ℤ → ℤ → ℤ} {harvest : ℤ → ℤ}
    {SE : DPState → List (DPState × ℚ)} {numRounds : ℤ} {z : DetResult}
    (hSE : ∀ ns x, x ∈ SE ns → x.1.period = ns.period) :
    ∀ n m s, solveFuel numRounds s ≤ n → solveFuel numRounds s ≤ m →
      detSolveF degen harvest SE numRounds z n s
        = detSolveF degen harvest SE numRounds z m s := by
  intro n
  induction n with
  | zero =>
    intro m s hn _
    have hterm : numRounds < (Transition degen harvest s).period := by
      unfold solveFuel at hn
      unfold Transition
      simp only
      omega
    cases m with
    | zero => rfl
    | succ m => simp [detSolveF, if_pos, hterm]
  | succ n ih =>
    intro m s hn hm
    by_cases hterm : numRounds < (Transition degen harvest s).period
        ∨ (Transition degen harvest s).health ≤ 0
    · cases m with
      | zero => simp [detSolveF, hterm]
      | succ m => simp [detSolveF, hterm]
    · have hper : (Transition degen harvest s).period = s.period + 1 := rfl
      have hfu : solveFuel numRounds s ≥ 2 := by
        unfold solveFuel
        push_neg at hterm
        omega
      cases m with
      | zero => omega
      | succ m =>
        simp only [detSolveF, if_neg hterm]
        have hcand : ∀ c ∈ SE (Transition degen harvest s),
            (detSolveF degen harvest SE numRounds z n c.1).val
              = (detSolveF degen harvest SE numRounds z m c.1).val := by
          intro c hc
          have hcper : c.1.period = s.period + 1 := by
            rw [hSE _ _ hc, hper]
          have hcf : solveFuel numRounds c.1 = solveFuel numRounds s - 1 := by
            unfold solveFuel
            rw [hcper]
            omega
          rw [ih m c.1 (by omega) (by omega)]
        rw [runLoop_congr (fun c => (detSolveF degen harvest SE numRounds z n c).val)
          (fun c => (detSolveF degen harvest SE numRounds z m c).val) hcand]

/-- The recursive equation of the deterministic `Solve`, exactly as in the
Python source: transition, terminal check, candidate loop over the enumerated
states with the recursively solved total value as future value. -/
theorem detSolve_eq {degen : ℤ → ℤ → ℤ} {harvest : ℤ → ℤ}
    {SE : DPState → List (DPState × ℚ)} {numRounds : ℤ} {z : DetResult}
    (hSE : ∀ ns x, x ∈ SE ns → x.1.period = ns.period) (s : DPState) :
    detSolve degen harvest SE numRounds z s
      = (if numRounds < (Transition degen harvest s).period
            ∨ (Transition degen harvest s).health ≤ 0 then
           .triple (Transition degen harvest s) 0 0
         else
           match runLoop (fun c => (detSolve degen harvest SE numRounds z c).val)
               none (SE (Transition degen harvest s)) with
           | none => z
           | some (st, tv, u) => .triple st tv u) := by
  unfold detSolve
  by_cases hterm : numRounds < (Transition degen harvest s).period
      ∨ (Transition degen harvest s).health ≤ 0
  · rw [if_pos hterm]
    cases hfu : solveFuel numRounds s with
    | zero => simp [detSolveF, hterm]
    | succ n => simp [detSolveF, hterm]
  · rw [if_neg hterm]
    have hper : (Transition degen harvest s).period = s.period + 1 := rfl
    have hfu : solveFuel numRounds s ≥ 2 := by
      unfold solveFuel
      push_neg at hterm
      omega
    obtain ⟨k, hk⟩ : ∃ k, solveFuel numRounds s = k + 1 := ⟨_, (by omega :
      solveFuel numRounds s = (solveFuel numRounds s - 1) + 1)⟩
    rw [hk]
    simp only [detSolveF, if_neg hterm]
    have hcand : ∀ c ∈ SE (Transition degen harvest s),
        (detSolveF degen harvest SE numRounds z k c.1).val
          = (detSolveF degen harvest SE numRounds z (solveFuel numRounds c.1) c.1).val := by
      intro c hc
      have hcper : c.1.period = s.period + 1 := by
        rw [hSE _ _ hc, hper]
      have hcf : solveFuel numRounds c.1 = solveFuel numRounds s - 1 := by
        unfold solveFuel
        rw [hcper]
        omega
      rw [detSolveF_congr hSE k (solveFuel numRounds c.1) c.1 (by omega) (by omega)]
    rw [runLoop_congr (fun c => (detSolveF degen harvest SE numRounds z k c).val)
      (fun c => (detSolveF degen harvest SE numRounds z (solveFuel numRounds c) c).val) hcand]

/-- `HealthCareDP.Solve` of `Healthcare_DP.py` (sigmoid variant):
`highestReturn` is initialized to the bare pair `(0, 0)`, which is what is
cached and returned when no candidate's total value exceeds 0. -/
def SigSolve (regen : ℤ → ℤ) (enjoy : ℤ → ℤ → ℚ) (degen : ℤ → ℤ → ℤ)
    (harvest : ℤ → ℤ) (numRounds : ℤ) (s : DPState) : DetResult :=
  detSolve degen harvest (StateEnum regen enjoy) numRounds (.pair 0 0) s

/-- `HealthCareDP.Solve` of `HealthcareDP_NewDegen.py`:
`highestReturn` is initialized to `(DPState(0, 0, 0), 0, 0)`. -/
def NDSolve (regen : ℤ → ℤ → ℤ) (enjoy : ℤ → ℤ → ℚ) (degen : ℤ → ℤ → ℤ)
    (harvest : ℤ → ℤ) (numRounds : ℤ) (s : DPState) : DetResult :=
  detSolve degen harvest (StateEnumND regen enjoy) numRounds
    (.triple ⟨0, 0, 0⟩ 0 0) s

theorem sigSolve_eq (regen : ℤ → ℤ) (enjoy : ℤ → ℤ → ℚ) (degen : ℤ → ℤ → ℤ)
    (harvest : ℤ → ℤ) (numRounds : ℤ) (s : DPState) :
    SigSolve regen enjoy degen harvest numRounds s
      = (if numRounds < (Transition degen harvest s).period
            ∨ (Transition degen harvest s).health ≤ 0 then
           .triple (Transition degen harvest s) 0 0
         else
           match runLoop
               (fun c => (SigSolve regen enjoy degen harvest numRounds c).val)
               none (StateEnum regen enjoy (Transition degen harvest s)) with
           | none => .pair 0 0
           | some (st, tv, u) => .triple st tv u) :=
  detSolve_eq (stateEnum_period regen enjoy) s

theorem ndSolve_eq (regen : ℤ → ℤ → ℤ) (enjoy : ℤ → ℤ → ℚ) (degen : ℤ → ℤ → ℤ)
    (harvest : ℤ → ℤ) (numRounds : ℤ) (s : DPState) :
    NDSolve regen enjoy degen harvest numRounds s
      = (if numRounds < (Transition degen harvest s).period
            ∨ (Transition degen harvest s).health ≤ 0 then
           .triple (Transition degen harvest s) 0 0
         else
           match runLoop
               (fun c => (NDSolve regen enjoy degen harvest numRounds c).val)
               none (StateEnumND regen enjoy (Transition degen harvest s)) with
           | none => .triple ⟨0, 0, 0⟩ 0 0
           | some (st, tv, u) => .triple st tv u) :=
  detSolve_eq (stateEnumND_period regen enjoy) s

/-! ### The stochastic solver

`HealthCareDP.Solve` of `HealthcareDP_Stoch.py` (lines 200-260).  After the
transition it also forms the shock ("hit") state, runs the candidate loop on
both, and caches/returns the triple
`(highestReturn, hitStateHighestReturn, expected_value)` with
`expected_value = (1-p)*highestReturn[1] + p*hitStateHighestReturn[1]`.
Recursive calls read index `[2]` of the result: 0 for a terminal
`(newState, 0, 0)`, the blended expectation otherwise. -/

/-- The result of the stochastic `Solve`: the terminal tuple
`(newState, 0, 0)` or the cached node
`(highestReturn, hitStateHighestReturn, expected_value)`, where an untouched
branch initialization `DPState(0, 0, -1)` is modeled by `none`. -/
inductive StochRes where
  | term (st : DPState)
  | node (bn bh : Option (DPState × ℚ × ℚ)) (ev : ℚ)
  deriving DecidableEq, Repr

/-- `result[2]`: 0 for a terminal result, the blended expectation otherwise
(this is the "future value" every recursive call consumes). -/
def StochRes.third : StochRes → ℚ
  | .term _ => 0
  | .node _ _ ev => ev

/-- The hit state: same period and cash, health reduced by the shock
magnitude and clamped at 0. -/
def hitStateOf (hitSize : ℤ) (ns : DPState) : DPState :=
  ⟨ns.period, max (ns.health - hitSize) 0, ns.cash⟩

/-- Fuel-indexed stochastic `Solve`. -/
def stochSolveF (regen : ℤ → ℤ) (enjoy : ℤ → ℤ → ℚ) (degen : ℤ → ℤ → ℤ)
    (harvest : ℤ → ℤ) (numRounds : ℤ) (p : ℚ) (hitSize : ℤ) :
    ℕ → DPState → StochRes
  | 0, s =>
    let newState := Transition degen harvest s
    if numRounds < newState.period ∨ newState.health ≤ 0 then .term newState
    else .node none none 0
  | fuel + 1, s =>
    let newState := Transition degen harvest s
    if numRounds < newState.period ∨ newState.health ≤ 0 then .term newState
    else
      let g := fun c =>
        (stochSolveF regen enjoy degen harvest numRounds p hitSize fuel c).third
      let bn := runLoop g none (StateEnum regen enjoy newState)
      let bh := runLoop g none (StateEnum regen enjoy (hitStateOf hitSize newState))
      .node bn bh ((1 - p) * optVal bn + p * optVal bh)

/-- The stochastic `Solve`, with the fuel fixed at its bound. -/
def StochSolve (regen : ℤ → ℤ) (enjoy : ℤ → ℤ → ℚ) (degen : ℤ → ℤ → ℤ)
    (harvest : ℤ → ℤ) (numRounds : ℤ) (p : ℚ) (hitSize : ℤ) (s : DPState) :
    StochRes :=
  stochSolveF regen enjoy degen harvest numRounds p hitSize
    (solveFuel numRounds s) s

theorem stochSolveF_congr {regen : ℤ → ℤ} {enjoy : ℤ → ℤ → ℚ}
    {degen : ℤ → ℤ → ℤ} {harvest : ℤ → ℤ} {numRounds : ℤ} {p : ℚ} {hitSize : ℤ} :
    ∀ n m s, solveFuel numRounds s ≤ n → solveFuel numRounds s ≤ m →
      stochSolveF regen enjoy degen harvest numRounds p hitSize n s
        = stochSolveF regen enjoy degen harvest numRounds p hitSize m s := by
  intro n
  induction n with
  | zero =>
    intro m s hn _
    have hterm : numRounds < (Transition degen harvest s).period := by
      unfold solveFuel at hn
      unfold Transition
      simp only
      omega
    cases m with
    | zero => rfl
    | succ m => simp [stochSolveF, if_pos, hterm]
  | succ n ih =>
    intro m s hn hm
    by_cases hterm : numRounds < (Transition degen harvest s).period
        ∨ (Transition degen harvest s).health ≤ 0
    · cases m with
      | zero => simp [stochSolveF, hterm]
      | succ m => simp [stochSolveF, hterm]
    · have hper : (Transition degen harvest s).period = s.period + 1 := rfl
      have hfu : solveFuel numRounds s ≥ 2 := by
        unfold solveFuel
        push_neg at hterm
        omega
      cases m with
      | zero => omega
      | succ m =>
        simp only [stochSolveF, if_neg hterm]
        have hcand : ∀ (l : List (DPState × ℚ)),
            (∀ x ∈ l, x.1.period = s.period + 1) →
            runLoop (fun c =>
                (stochSolveF regen enjoy degen harvest numRounds p hitSize n c).third)
              none l
            = runLoop (fun c =>
                (stochSolveF regen enjoy degen harvest numRounds p hitSize m c).third)
              none l := by
          intro l hl
          refine runLoop_congr _ _ (fun c hc => ?_)
          have hcf : solveFuel numRounds c.1 = solveFuel numRounds s - 1 := by
            unfold solveFuel
            rw [hl c hc]
            omega
          rw [ih m c.1 (by omega) (by omega)]
        rw [hcand _ (fun x hx => by rw [stateEnum_period regen enjoy _ _ hx, hper]),
          hcand _ (fun x hx => by rw [stateEnum_period regen enjoy _ _ hx]; rfl)]

/-- The recursive equation of the stochastic `Solve`, exactly as in the
Python source.  Both branch loops consume `result[2]` — the blended
expectation — of the recursive call as future value. -/
theorem stochSolve_eq (regen : ℤ → ℤ) (enjoy : ℤ → ℤ → ℚ) (degen : ℤ → ℤ → ℤ)
    (harvest : ℤ → ℤ) (numRounds : ℤ) (p : ℚ) (hitSize : ℤ) (s : DPState) :
    StochSolve regen enjoy degen harvest numRounds p hitSize s
      = (if numRounds < (Transition degen harvest s).period
            ∨ (Transition degen harvest s).health ≤ 0 then
           .term (Transition degen harvest s)
         else
           let g := fun c =>
             (StochSolve regen enjoy degen harvest numRounds p hitSize c).third
           let bn := runLoop g none
             (StateEnum regen enjoy (Transition degen harvest s))
           let bh := runLoop g none
             (StateEnum regen enjoy (hitStateOf hitSize (Transition degen harvest s)))
           .node bn bh ((1 - p) * optVal bn + p * optVal bh)) := by
  unfold StochSolve
  by_cases hterm : numRounds < (Transition degen harvest s).period
      ∨ (Transition degen harvest s).health ≤ 0
  · rw [if_pos hterm]
    cases hfu : solveFuel numRounds s with
    | zero => simp [stochSolveF, hterm]
    | succ n => simp [stochSolveF, hterm]
  · rw [if_neg hterm]
    have hper : (Transition degen harvest s).period = s.period + 1 := rfl
    have hfu : solveFuel numRounds s ≥ 2 := by
      unfold solveFuel
      push_neg at hterm
      omega
    obtain ⟨k, hk⟩ : ∃ k, solveFuel numRounds s = k + 1 := ⟨_, (by omega :
      solveFuel numRounds s = (solveFuel numRounds s - 1) + 1)⟩
    rw [hk]
    simp only [stochSolveF, if_neg hterm]
    have hcand : ∀ (l : List (DPState × ℚ)),
        (∀ x ∈ l, x.1.period = s.period + 1) →
        runLoop (fun c =>
            (stochSolveF regen enjoy degen harvest numRounds p hitSize k c).third)
          none l
        = runLoop (fun c =>
            (stochSolveF regen enjoy degen harvest numRounds p hitSize
              (solveFuel numRounds c) c).third)
          none l := by
      intro l hl
      refine runLoop_congr _ _ (fun c hc => ?_)
      have hcf : solveFuel numRounds c.1 = solveFuel numRounds s - 1 := by
        unfold solveFuel
        rw [hl c hc]
        omega
      rw [stochSolveF_congr k (solveFuel numRounds c.1) c.1 (by omega) (by omega)]
    rw [hcand _ (fun x hx => by rw [stateEnum_period regen enjoy _ _ hx, hper]),
      hcand _ (fun x hx => by rw [stateEnum_period regen enjoy _ _ hx]; rfl)]

/-! ### Candidate-loop characterization

The loop keeps the running best, replacing it only on a strictly greater
total value, so it computes the *first* candidate attaining the maximum total
value — provided that maximum beats the initialization value 0. -/

theorem runLoop_acc_le (g : DPState → ℚ) :
    ∀ (l : List (DPState × ℚ)) (acc), optVal acc ≤ optVal (runLoop g acc l)
  | [], acc => le_refl _
  | c :: rest, acc => by
    unfold runLoop
    by_cases h : optVal acc < c.2 + g c.1
    · rw [if_pos h]
      calc optVal acc ≤ c.2 + g c.1 := le_of_lt h
        _ = optVal (some (c.1, c.2 + g c.1, pyRound1 c.2)) := rfl
        _ ≤ _ := runLoop_acc_le g rest _
    · rw [if_neg h]
      exact runLoop_acc_le g rest acc

theorem runLoop_upper (g : DPState → ℚ) :
    ∀ (l : List (DPState × ℚ)) (acc) (c), c ∈ l →
      c.2 + g c.1 ≤ optVal (runLoop g acc l)
  | [], acc, c => by intro h; cases h
  | d :: rest, acc, c => by
    intro hc
    unfold runLoop
    rcases List.mem_cons.mp hc with rfl | hc2
    · by_cases h : optVal acc < c.2 + g c.1
      · rw [if_pos h]
        calc c.2 + g c.1 = optVal (some (c.1, c.2 + g c.1, pyRound1 c.2)) := rfl
          _ ≤ _ := runLoop_acc_le g rest _
      · rw [if_neg h]
        push_neg at h
        exact le_trans h (runLoop_acc_le g rest acc)
    · exact runLoop_upper g rest _ c hc2

theorem runLoop_stable (g : DPState → ℚ) :
    ∀ (l : List (DPState × ℚ)) (acc), (∀ c ∈ l, c.2 + g c.1 ≤ optVal acc) →
      runLoop g acc l = acc
  | [], acc => by intro _; rfl
  | c :: rest, acc => by
    intro hall
    unfold runLoop
    rw [if_neg (not_lt.mpr (hall c (by simp))),
      runLoop_stable g rest acc (fun d hd => hall d (by simp [hd]))]

theorem runLoop_first_max (g : DPState → ℚ) :
    ∀ (l : List (DPState × ℚ)) (acc), (∃ c ∈ l, optVal acc < c.2 + g c.1) →
      ∃ pre x post, l = pre ++ x :: post
        ∧ runLoop g acc l = some (x.1, x.2 + g x.1, pyRound1 x.2)
        ∧ optVal acc < x.2 + g x.1
        ∧ (∀ y ∈ pre, y.2 + g y.1 < x.2 + g x.1)
        ∧ (∀ y ∈ post, y.2 + g y.1 ≤ x.2 + g x.1)
  | [], acc => by rintro ⟨c, hc, _⟩; cases hc
  | c :: rest, acc => by
    rintro ⟨d, hd, hdgt⟩
    by_cases h1 : optVal acc < c.2 + g c.1
    · by_cases h2 : ∃ y ∈ rest, c.2 + g c.1 < y.2 + g y.1
      · obtain ⟨pre, x, post, heq, hres, hgt, hpre, hpost⟩ :=
          runLoop_first_max g rest (some (c.1, c.2 + g c.1, pyRound1 c.2))
            (by simpa [optVal] using h2)
        refine ⟨c :: pre, x, post, by rw [heq]; rfl, ?_, ?_, ?_, hpost⟩
        · unfold runLoop
          rw [if_pos h1]
          exact hres
        · simp only [optVal] at hgt
          exact lt_trans h1 hgt
        · intro y hy
          rcases List.mem_cons.mp hy with rfl | hy2
          · simpa [optVal] using hgt
          · exact hpre y hy2
      · push_neg at h2
        refine ⟨[], c, rest, rfl, ?_, h1, by simp, h2⟩
        unfold runLoop
        rw [if_pos h1]
        exact runLoop_stable g rest _ (by simpa [optVal] using h2)
    · have hd2 : ∃ y ∈ rest, optVal acc < y.2 + g y.1 := by
        rcases List.mem_cons.mp hd with rfl | hd3
        · exact absurd hdgt h1
        · exact ⟨d, hd3, hdgt⟩
      obtain ⟨pre, x, post, heq, hres, hgt, hpre, hpost⟩ :=
        runLoop_first_max g rest acc hd2
      refine ⟨c :: pre, x, post, by rw [heq]; rfl, ?_, hgt, ?_, hpost⟩
      · unfold runLoop
        rw [if_neg h1]
        exact hres
      · intro y hy
        rcases List.mem_cons.mp hy with rfl | hy2
        · push_neg at h1
          exact lt_of_le_of_lt h1 hgt
        · exact hpre y hy2

theorem runLoop_none_or (g : DPState → ℚ) (l : List (DPState × ℚ)) :
    runLoop g none l = none
      ∨ ∃ x ∈ l, runLoop g none l = some (x.1, x.2 + g x.1, pyRound1 x.2) := by
  by_cases h : ∃ c ∈ l, optVal none < c.2 + g c.1
  · obtain ⟨pre, x, post, heq, hres, _, _, _⟩ := runLoop_first_max g l none h
    exact Or.inr ⟨x, by rw [heq]; simp, hres⟩
  · push_neg at h
    exact Or.inl (runLoop_stable g l none h)

/-- Every deterministic solver value is nonnegative: the loop starts at 0 and
only ever replaces the running best by a strictly larger total value. -/
theorem detSolve_val_nonneg {degen : ℤ → ℤ → ℤ} {harvest : ℤ → ℤ}
    {SE : DPState → List (DPState × ℚ)} {numRounds : ℤ} {z : DetResult}
    (hSE : ∀ ns x, x ∈ SE ns → x.1.period = ns.period) (hz : 0 ≤ z.val)
    (s : DPState) : 0 ≤ (detSolve degen harvest SE numRounds z s).val := by
  rw [detSolve_eq hSE s]
  by_cases hterm : numRounds < (Transition degen harvest s).period
      ∨ (Transition degen harvest s).health ≤ 0
  · rw [if_pos hterm]
    exact le_refl 0
  · rw [if_neg hterm]
    rcases runLoop_none_or
        (fun c => (detSolve degen harvest SE numRounds z c).val)
        (SE (Transition degen harvest s)) with h | ⟨x, _, h⟩
    · rw [h]
      exact hz
    · rw [h]
      have hle := runLoop_acc_le
        (fun c => (detSolve degen harvest SE numRounds z c).val)
        (SE (Transition degen harvest s)) none
      rw [h] at hle
      simpa [optVal, DetResult.val] using hle

/-! ### Toy strategy instantiations

Concrete, trivially monotone strategy functions used to evaluate the embedded
solvers at concrete inputs (the class constructors accept any functions with
these signatures). -/

/-- Zero health regeneration. -/
def regZero : ℤ → ℤ := fun _ => 0

/-- Zero enjoyment. -/
def enjZero : ℤ → ℤ → ℚ := fun _ _ => 0

/-- Constant enjoyment 1 per round. -/
def enjOne : ℤ → ℤ → ℚ := fun _ _ => 1

/-- Health carried over unchanged each round. -/
def degKeep : ℤ → ℤ → ℤ := fun h _ => h

/-- Zero harvest. -/
def harvZero : ℤ → ℤ := fun _ => 0

/-! ### Claims -/

/-- Membership characterization of the plateau-pruned enumerator: retained
health-expenditures with the clamped consumption window and the bank as
remainder. -/
theorem mem_invEnum_full (regen : ℤ → ℤ) (cash : ℤ)
    (inv : Investment) :
    inv ∈ InvestmentEnum regen cash
      ↔ 0 ≤ inv.healthExpenditure ∧ inv.healthExpenditure ≤ cash
        ∧ regen inv.healthExpenditure ≠ prevAfter regen inv.healthExpenditure.toNat
        ∧ max (cash - inv.healthExpenditure - 20) 0 ≤ inv.lifeExpenditure
        ∧ inv.lifeExpenditure ≤ cash - inv.healthExpenditure
        ∧ inv.cashRemaining = cash - inv.healthExpenditure - inv.lifeExpenditure := by
  rw [mem_InvestmentEnum]
  constructor
  · rintro ⟨he, hlt, hne, hw⟩
    obtain ⟨h0, h1, h2, h3⟩ := mem_windowInvs.mp hw
    rw [Int.ofNat_eq_coe] at h0 h1 h2 h3 hne
    have hto : ((he : ℤ)).toNat = he := by omega
    rw [h0, hto]
    exact ⟨by omega, by omega, hne, h1, by omega, h3⟩
  · rintro ⟨h0, h1, hne, h2, h3, h4⟩
    refine ⟨inv.healthExpenditure.toNat, by omega, ?_, ?_⟩
    · simpa [Int.ofNat_eq_coe, Int.toNat_of_nonneg h0] using hne
    · rw [mem_windowInvs, Int.ofNat_eq_coe, Int.toNat_of_nonneg h0]
      exact ⟨rfl, h2, by omega, h4⟩

/-- **C6.**  In the plateau-pruned enumeration policy, for a given currency
amount the enumerator iterates resource-expenditure over every integer from 0
to `currency`, skipping a resource-expenditure exactly when its resource gain
equals the `prev` gain of the last retained value (`prevAfter`), and for each
retained resource-expenditure the consumption-expenditure ranges exactly over
the bounded window from `currency - resourceExpenditure - 20` (clamped at 0,
since Python's `max(..., 0)` floors the window start) up to the full
remainder `currency - resourceExpenditure`, the banked remainder making up
the difference. -/
theorem investmentEnum_plateau_window (regen : ℤ → ℤ) (cash : ℤ)
    (inv : Investment) :
    inv ∈ InvestmentEnum regen cash
      ↔ 0 ≤ inv.healthExpenditure ∧ inv.healthExpenditure ≤ cash
        ∧ regen inv.healthExpenditure ≠ prevAfter regen inv.healthExpenditure.toNat
        ∧ max (cash - inv.healthExpenditure - 20) 0 ≤ inv.lifeExpenditure
        ∧ inv.lifeExpenditure ≤ cash - inv.healthExpenditure
        ∧ inv.cashRemaining = cash - inv.healthExpenditure - inv.lifeExpenditure :=
  mem_invEnum_full regen cash inv

/-- **C4.**  For every non-negative currency amount, every Investment
produced by either enumerator — the plateau-pruned one of the sigmoid and
stochastic variants and the exhaustive-banked one of the NewDegen variant —
has non-negative components whose sum
`resourceExpenditure + consumptionExpenditure + bankedRemainder` equals
exactly the currency amount. -/
theorem investment_conservation :
    (∀ (regen : ℤ → ℤ) (cash : ℤ), 0 ≤ cash →
      ∀ inv ∈ InvestmentEnum regen cash,
        0 ≤ inv.healthExpenditure ∧ 0 ≤ inv.lifeExpenditure
          ∧ 0 ≤ inv.cashRemaining
          ∧ inv.healthExpenditure + inv.lifeExpenditure + inv.cashRemaining
              = cash)
    ∧ (∀ (cash health : ℤ), 0 ≤ cash →
      ∀ inv ∈ InvestmentEnumND cash health,
        0 ≤ inv.healthExpenditure ∧ 0 ≤ inv.lifeExpenditure
          ∧ 0 ≤ inv.cashRemaining
          ∧ inv.healthExpenditure + inv.lifeExpenditure + inv.cashRemaining
              = cash) := by
  constructor
  · intro regen cash _ inv hmem
    obtain ⟨_, h1, _, h2, h3, h4⟩ :=
      (mem_invEnum_full regen cash inv).mp hmem
    omega
  · intro cash health _ inv hmem
    unfold InvestmentEnumND at hmem
    rcases List.mem_flatMap.mp hmem with ⟨he, hhe, hmap⟩
    rcases List.mem_map.mp hmap with ⟨b, hb, rfl⟩
    rcases mem_pyRange.mp hhe with ⟨h1, h2⟩
    rcases mem_pyRangeStep10 hb with ⟨h3, h4⟩
    simp only
    omega

/-- Witness for C4 at `cash = 2` (plateau-pruned, zero regeneration, so only
`healthExpenditure = 0` is retained) and `cash = 2, health = 50`
(exhaustive-banked). -/
theorem investment_conservation_witness :
    (0:ℤ) ≤ 2
      ∧ (∀ inv ∈ InvestmentEnum regZero 2,
          0 ≤ inv.healthExpenditure ∧ 0 ≤ inv.lifeExpenditure
            ∧ 0 ≤ inv.cashRemaining
            ∧ inv.healthExpenditure + inv.lifeExpenditure + inv.cashRemaining
                = 2)
      ∧ (∀ inv ∈ InvestmentEnumND 2 50,
          0 ≤ inv.healthExpenditure ∧ 0 ≤ inv.lifeExpenditure
            ∧ 0 ≤ inv.cashRemaining
            ∧ inv.healthExpenditure + inv.lifeExpenditure + inv.cashRemaining
                = 2) :=
  ⟨by decide, investment_conservation.1 regZero 2 (by decide),
    investment_conservation.2 2 50 (by decide)⟩

/-- **C10.**  In the deterministic sigmoid-variant solver, if a non-terminal
post-transition state has no enumerated candidate whose total value
(immediate utility plus future value) is strictly greater than 0, then
`Solve` caches and returns the untouched initialization pair `(0, 0)` — a
two-element tuple with no next-state and no immediate-utility component —
instead of a `(nextState, totalValue, immediateUtility)` triple. -/
theorem sigSolve_degenerate_pair (regen : ℤ → ℤ) (enjoy : ℤ → ℤ → ℚ)
    (degen : ℤ → ℤ → ℤ) (harvest : ℤ → ℤ) (numRounds : ℤ) (s : DPState)
    (hterm : ¬(numRounds < (Transition degen harvest s).period
        ∨ (Transition degen harvest s).health ≤ 0))
    (hall : ∀ c ∈ StateEnum regen enjoy (Transition degen harvest s),
        c.2 + (SigSolve regen enjoy degen harvest numRounds c.1).val ≤ 0) :
    SigSolve regen enjoy degen harvest numRounds s = .pair 0 0 := by
  rw [sigSolve_eq, if_neg hterm,
    runLoop_stable _ _ _ (fun c hc => by simpa [optVal] using hall c hc)]

/-- Witness for C10: two rounds, currency 0, zero enjoyment — every candidate
totals 0, and `Solve` returns the bare pair `(0, 0)`. -/
theorem sigSolve_degenerate_pair_witness :
    (¬((1:ℤ) < (Transition degKeep harvZero ⟨0, 50, 0⟩).period
        ∨ (Transition degKeep harvZero ⟨0, 50, 0⟩).health ≤ 0))
    ∧ (∀ c ∈ StateEnum regZero enjZero (Transition degKeep harvZero ⟨0, 50, 0⟩),
        c.2 + (SigSolve regZero enjZero degKeep harvZero 1 c.1).val ≤ 0)
    ∧ SigSolve regZero enjZero degKeep harvZero 1 ⟨0, 50, 0⟩ = .pair 0 0 := by
  have hterm : ¬((1:ℤ) < (Transition degKeep harvZero ⟨0, 50, 0⟩).period
      ∨ (Transition degKeep harvZero ⟨0, 50, 0⟩).health ≤ 0) := by decide
  have hall : ∀ c ∈ StateEnum regZero enjZero (Transition degKeep harvZero ⟨0, 50, 0⟩),
      c.2 + (SigSolve regZero enjZero degKeep harvZero 1 c.1).val ≤ 0 := by
    intro c hc
    have hse : StateEnum regZero enjZero (Transition degKeep harvZero ⟨0, 50, 0⟩)
        = [(⟨1, 50, 0⟩, (0:ℚ))] := by decide
    rw [hse] at hc
    rcases List.mem_singleton.mp hc with rfl
    have hsolve : SigSolve regZero enjZero degKeep harvZero 1 ⟨1, 50, 0⟩
        = .triple ⟨2, 50, 0⟩ 0 0 := by
      rw [sigSolve_eq]
      norm_num [Transition, degKeep, harvZero]
    rw [hsolve]
    norm_num [DetResult.val]
  exact ⟨hterm, hall,
    sigSolve_degenerate_pair regZero enjZero degKeep harvZero 1 ⟨0, 50, 0⟩ hterm hall⟩

/-- Counterexample for C2 as stated: at a non-terminal post-transition state
whose candidates all total 0, the sigmoid-variant `Solve` returns the bare
initialization pair `(0, 0)` — not a
`(bestNextState, bestTotalValue, round(bestImmediateUtility, 1))` triple. -/
theorem det_solve_returns_pair_counterexample :
    SigSolve regZero enjZero degKeep harvZero 1 ⟨0, 60, 0⟩ = .pair 0 0
      ∧ ∀ st tv u, SigSolve regZero enjZero degKeep harvZero 1 ⟨0, 60, 0⟩
          ≠ .triple st tv u := by
  have hterm : ¬((1:ℤ) < (Transition degKeep harvZero ⟨0, 60, 0⟩).period
      ∨ (Transition degKeep harvZero ⟨0, 60, 0⟩).health ≤ 0) := by decide
  have hall : ∀ c ∈ StateEnum regZero enjZero (Transition degKeep harvZero ⟨0, 60, 0⟩),
      c.2 + (SigSolve regZero enjZero degKeep harvZero 1 c.1).val ≤ 0 := by
    intro c hc
    have hse : StateEnum regZero enjZero (Transition degKeep harvZero ⟨0, 60, 0⟩)
        = [(⟨1, 60, 0⟩, (0:ℚ))] := by decide
    rw [hse] at hc
    rcases List.mem_singleton.mp hc with rfl
    have hsolve : SigSolve regZero enjZero degKeep harvZero 1 ⟨1, 60, 0⟩
        = .triple ⟨2, 60, 0⟩ 0 0 := by
      rw [sigSolve_eq]
      norm_num [Transition, degKeep, harvZero]
    rw [hsolve]
    norm_num [DetResult.val]
  have hpair : SigSolve regZero enjZero degKeep harvZero 1 ⟨0, 60, 0⟩
      = .pair 0 0 := by
    rw [sigSolve_eq, if_neg hterm,
      runLoop_stable _ _ _ (fun c hc => by simpa [optVal] using hall c hc)]
  refine ⟨hpair, fun st tv u h => ?_⟩
  rw [hpair] at h
  exact DetResult.noConfusion h

/-- **C2 (amended).**  In both deterministic solvers, each candidate's total
value is its immediate utility plus the recursively solved future value of
its resulting state, a candidate replaces the running best only on a strictly
greater total value (so on ties the first-seen candidate in enumeration order
is kept), and — whenever some candidate's total value is strictly positive —
the solver caches and returns the winning triple
`(bestNextState, bestTotalValue, round(bestImmediateUtility, 1))`: the first
candidate in enumeration order attaining the maximum total value, every
earlier candidate totalling strictly less and every later one totalling no
more.  (When no candidate beats 0, the sigmoid variant instead returns the
initialization pair `(0, 0)` — see the counterexample — and the NewDegen
variant its initialization triple `(DPState(0,0,0), 0, 0)`.) -/
theorem det_solve_candidate_loop :
    (∀ (regen : ℤ → ℤ) (enjoy : ℤ → ℤ → ℚ) (degen : ℤ → ℤ → ℤ)
        (harvest : ℤ → ℤ) (numRounds : ℤ) (s : DPState),
      ¬(numRounds < (Transition degen harvest s).period
          ∨ (Transition degen harvest s).health ≤ 0) →
      (∃ c ∈ StateEnum regen enjoy (Transition degen harvest s),
          0 < c.2 + (SigSolve regen enjoy degen harvest numRounds c.1).val) →
      ∃ pre x post,
        StateEnum regen enjoy (Transition degen harvest s) = pre ++ x :: post
        ∧ SigSolve regen enjoy degen harvest numRounds s
            = .triple x.1
                (x.2 + (SigSolve regen enjoy degen harvest numRounds x.1).val)
                (pyRound1 x.2)
        ∧ (∀ y ∈ pre,
            y.2 + (SigSolve regen enjoy degen harvest numRounds y.1).val
              < x.2 + (SigSolve regen enjoy degen harvest numRounds x.1).val)
        ∧ (∀ y ∈ post,
            y.2 + (SigSolve regen enjoy degen harvest numRounds y.1).val
              ≤ x.2 + (SigSolve regen enjoy degen harvest numRounds x.1).val))
    ∧ (∀ (regen : ℤ → ℤ → ℤ) (enjoy : ℤ → ℤ → ℚ) (degen : ℤ → ℤ → ℤ)
        (harvest : ℤ → ℤ) (numRounds : ℤ) (s : DPState),
      ¬(numRounds < (Transition degen harvest s).period
          ∨ (Transition degen harvest s).health ≤ 0) →
      (∃ c ∈ StateEnumND regen enjoy (Transition degen harvest s),
          0 < c.2 + (NDSolve regen enjoy degen harvest numRounds c.1).val) →
      ∃ pre x post,
        StateEnumND regen enjoy (Transition degen harvest s) = pre ++ x :: post
        ∧ NDSolve regen enjoy degen harvest numRounds s
            = .triple x.1
                (x.2 + (NDSolve regen enjoy degen harvest numRounds x.1).val)
                (pyRound1 x.2)
        ∧ (∀ y ∈ pre,
            y.2 + (NDSolve regen enjoy degen harvest numRounds y.1).val
              < x.2 + (NDSolve regen enjoy degen harvest numRounds x.1).val)
        ∧ (∀ y ∈ post,
            y.2 + (NDSolve regen enjoy degen harvest numRounds y.1).val
              ≤ x.2 + (NDSolve regen enjoy degen harvest numRounds x.1).val)) := by
  constructor
  · intro regen enjoy degen harvest numRounds s hterm hpos
    obtain ⟨pre, x, post, heq, hres, _, hpre, hpost⟩ :=
      runLoop_first_max
        (fun c => (SigSolve regen enjoy degen harvest numRounds c).val)
        (StateEnum regen enjoy (Transition degen harvest s)) none
        (by simpa [optVal] using hpos)
    refine ⟨pre, x, post, heq, ?_, hpre, hpost⟩
    rw [sigSolve_eq, if_neg hterm, hres]
  · intro regen enjoy degen harvest numRounds s hterm hpos
    obtain ⟨pre, x, post, heq, hres, _, hpre, hpost⟩ :=
      runLoop_first_max
        (fun c => (NDSolve regen enjoy degen harvest numRounds c).val)
        (StateEnumND regen enjoy (Transition degen harvest s)) none
        (by simpa [optVal] using hpos)
    refine ⟨pre, x, post, heq, ?_, hpre, hpost⟩
    rw [ndSolve_eq, if_neg hterm, hres]

/-- Witness for the amended C2: two rounds, enjoyment 1 — the single
candidate wins with total value 1 and the solver returns its triple. -/
theorem det_solve_candidate_loop_witness :
    (¬((1:ℤ) < (Transition degKeep harvZero ⟨0, 50, 0⟩).period
        ∨ (Transition degKeep harvZero ⟨0, 50, 0⟩).health ≤ 0))
    ∧ (∃ c ∈ StateEnum regZero enjOne (Transition degKeep harvZero ⟨0, 50, 0⟩),
        0 < c.2 + (SigSolve regZero enjOne degKeep harvZero 1 c.1).val)
    ∧ (∃ pre x post,
        StateEnum regZero enjOne (Transition degKeep harvZero ⟨0, 50, 0⟩)
            = pre ++ x :: post
        ∧ SigSolve regZero enjOne degKeep harvZero 1 ⟨0, 50, 0⟩
            = .triple x.1
                (x.2 + (SigSolve regZero enjOne degKeep harvZero 1 x.1).val)
                (pyRound1 x.2)
        ∧ (∀ y ∈ pre,
            y.2 + (SigSolve regZero enjOne degKeep harvZero 1 y.1).val
              < x.2 + (SigSolve regZero enjOne degKeep harvZero 1 x.1).val)
        ∧ (∀ y ∈ post,
            y.2 + (SigSolve regZero enjOne degKeep harvZero 1 y.1).val
              ≤ x.2 + (SigSolve regZero enjOne degKeep harvZero 1 x.1).val)) := by
  have hterm : ¬((1:ℤ) < (Transition degKeep harvZero ⟨0, 50, 0⟩).period
      ∨ (Transition degKeep harvZero ⟨0, 50, 0⟩).health ≤ 0) := by decide
  have hpos : ∃ c ∈ StateEnum regZero enjOne (Transition degKeep harvZero ⟨0, 50, 0⟩),
      0 < c.2 + (SigSolve regZero enjOne degKeep harvZero 1 c.1).val := by
    refine ⟨(⟨1, 50, 0⟩, 1), by decide, ?_⟩
    have hsolve : SigSolve regZero enjOne degKeep harvZero 1 ⟨1, 50, 0⟩
        = .triple ⟨2, 50, 0⟩ 0 0 := by
      rw [sigSolve_eq]
      norm_num [Transition, degKeep, harvZero]
    rw [hsolve]
    norm_num [DetResult.val]
  exact ⟨hterm, hpos,
    det_solve_candidate_loop.1 regZero enjOne degKeep harvZero 1 ⟨0, 50, 0⟩ hterm hpos⟩

/-- **C3.**  For every state whose period exceeds the horizon or whose
resource equals 0 (the degeneration strategy keeping a 0 resource at 0, as
every strategy in the sources does on in-range rounds), `Solve` — in the
deterministic and the stochastic variant — returns the terminal tuple
`(newState, 0, 0)`: total value 0 and immediate utility 0; such states stay
terminal, so they are absorbing with value 0 thereafter. -/
theorem solve_terminal_zero :
    (∀ (regen : ℤ → ℤ) (enjoy : ℤ → ℤ → ℚ) (degen : ℤ → ℤ → ℤ)
        (harvest : ℤ → ℤ) (numRounds : ℤ) (s : DPState),
      (numRounds < s.period ∨ (s.health = 0 ∧ degen 0 (s.period + 1) ≤ 0)) →
      SigSolve regen enjoy degen harvest numRounds s
        = .triple (Transition degen harvest s) 0 0)
    ∧ (∀ (regen : ℤ → ℤ) (enjoy : ℤ → ℤ → ℚ) (degen : ℤ → ℤ → ℤ)
        (harvest : ℤ → ℤ) (numRounds : ℤ) (p : ℚ) (hitSize : ℤ) (s : DPState),
      (numRounds < s.period ∨ (s.health = 0 ∧ degen 0 (s.period + 1) ≤ 0)) →
      StochSolve regen enjoy degen harvest numRounds p hitSize s
        = .term (Transition degen harvest s)
        ∧ (StochSolve regen enjoy degen harvest numRounds p hitSize s).third
            = 0) := by
  have hcond : ∀ (degen : ℤ → ℤ → ℤ) (harvest : ℤ → ℤ) (numRounds : ℤ)
      (s : DPState),
      (numRounds < s.period ∨ (s.health = 0 ∧ degen 0 (s.period + 1) ≤ 0)) →
      (numRounds < (Transition degen harvest s).period
        ∨ (Transition degen harvest s).health ≤ 0) := by
    intro degen harvest numRounds s h
    rcases h with h | ⟨h0, hd⟩
    · left
      show numRounds < s.period + 1
      omega
    · right
      show degen s.health (s.period + 1) ≤ 0
      rw [h0]
      exact hd
  constructor
  · intro regen enjoy degen harvest numRounds s h
    rw [sigSolve_eq, if_pos (hcond degen harvest numRounds s h)]
  · intro regen enjoy degen harvest numRounds p hitSize s h
    constructor
    · rw [stochSolve_eq, if_pos (hcond degen harvest numRounds s h)]
    · rw [stochSolve_eq, if_pos (hcond degen harvest numRounds s h)]
      rfl

/-- Witness for C3: a resource-0 state in the deterministic solver and a
past-horizon state in the stochastic solver. -/
theorem solve_terminal_zero_witness :
    ((3:ℤ) < (0:ℤ) ∨ ((0:ℤ) = 0 ∧ degKeep 0 (0 + 1) ≤ 0))
    ∧ SigSolve regZero enjOne degKeep harvZero 3 ⟨0, 0, 5⟩
        = .triple (Transition degKeep harvZero ⟨0, 0, 5⟩) 0 0
    ∧ ((3:ℤ) < (7:ℤ) ∨ ((2:ℤ) = 0 ∧ degKeep 0 (7 + 1) ≤ 0))
    ∧ StochSolve regZero enjOne degKeep harvZero 3 (1/2) 10 ⟨7, 2, 0⟩
        = .term (Transition degKeep harvZero ⟨7, 2, 0⟩)
    ∧ (StochSolve regZero enjOne degKeep harvZero 3 (1/2) 10 ⟨7, 2, 0⟩).third
        = 0 := by
  have h1 : (3:ℤ) < (0:ℤ) ∨ ((0:ℤ) = 0 ∧ degKeep 0 (0 + 1) ≤ 0) := by decide
  have h2 : (3:ℤ) < (7:ℤ) ∨ ((2:ℤ) = 0 ∧ degKeep 0 (7 + 1) ≤ 0) := by decide
  obtain ⟨hs, ht⟩ := solve_terminal_zero.2 regZero enjOne degKeep harvZero 3
    (1/2) 10 ⟨7, 2, 0⟩ h2
  exact ⟨h1, solve_terminal_zero.1 regZero enjOne degKeep harvZero 3 ⟨0, 0, 5⟩ h1,
    h2, hs, ht⟩

/-- **C1.**  In the stochastic solver, for every non-terminal post-transition
state, `Solve` caches and returns the triple
`(bestNormal, bestHit, expected_value)`, where `bestNormal` and `bestHit` are
the candidate-loop winners over the normal and hit states, and the blended
expectation equals `(1-p)*bestNormal[1] + p*bestHit[1]` with `p` the fixed
per-round shock probability.  Both candidate loops consume `result[2]` of the
recursive `Solve` call — the blended expectation (`StochRes.third`), never a
branch's raw solo total value — as the future value added to a candidate's
immediate utility, and `result[2]` of the returned triple is again the
blend. -/
theorem stoch_solve_blends (regen : ℤ → ℤ) (enjoy : ℤ → ℤ → ℚ)
    (degen : ℤ → ℤ → ℤ) (harvest : ℤ → ℤ) (numRounds : ℤ) (p : ℚ)
    (hitSize : ℤ) (s : DPState)
    (hterm : ¬(numRounds < (Transition degen harvest s).period
        ∨ (Transition degen harvest s).health ≤ 0)) :
    ∃ bn bh,
      bn = runLoop (fun c =>
          (StochSolve regen enjoy degen harvest numRounds p hitSize c).third)
        none (StateEnum regen enjoy (Transition degen harvest s))
      ∧ bh = runLoop (fun c =>
          (StochSolve regen enjoy degen harvest numRounds p hitSize c).third)
        none
        (StateEnum regen enjoy (hitStateOf hitSize (Transition degen harvest s)))
      ∧ StochSolve regen enjoy degen harvest numRounds p hitSize s
          = .node bn bh ((1 - p) * optVal bn + p * optVal bh)
      ∧ (StochSolve regen enjoy degen harvest numRounds p hitSize s).third
          = (1 - p) * optVal bn + p * optVal bh := by
  refine ⟨_, _, rfl, rfl, ?_, ?_⟩
  · rw [stochSolve_eq, if_neg hterm]
  · rw [stochSolve_eq, if_neg hterm]
    rfl

/-- Witness for C1 at a concrete non-terminal state of a toy stochastic
instance with `p = 1/2` and shock magnitude 10. -/
theorem stoch_solve_blends_witness :
    (¬((1:ℤ) < (Transition degKeep harvZero ⟨0, 50, 0⟩).period
        ∨ (Transition degKeep harvZero ⟨0, 50, 0⟩).health ≤ 0))
    ∧ ∃ bn bh,
      bn = runLoop (fun c =>
          (StochSolve regZero enjOne degKeep harvZero 1 (1/2) 10 c).third)
        none (StateEnum regZero enjOne (Transition degKeep harvZero ⟨0, 50, 0⟩))
      ∧ bh = runLoop (fun c =>
          (StochSolve regZero enjOne degKeep harvZero 1 (1/2) 10 c).third)
        none
        (StateEnum regZero enjOne
          (hitStateOf 10 (Transition degKeep harvZero ⟨0, 50, 0⟩)))
      ∧ StochSolve regZero enjOne degKeep harvZero 1 (1/2) 10 ⟨0, 50, 0⟩
          = .node bn bh ((1 - 1/2) * optVal bn + 1/2 * optVal bh)
      ∧ (StochSolve regZero enjOne degKeep harvZero 1 (1/2) 10 ⟨0, 50, 0⟩).third
          = (1 - 1/2) * optVal bn + 1/2 * optVal bh := by
  have hterm : ¬((1:ℤ) < (Transition degKeep harvZero ⟨0, 50, 0⟩).period
      ∨ (Transition degKeep harvZero ⟨0, 50, 0⟩).health ≤ 0) := by decide
  exact ⟨hterm,
    stoch_solve_blends regZero enjOne degKeep harvZero 1 (1/2) 10 ⟨0, 50, 0⟩ hterm⟩

/-- Counterexample for C8: the sigmoid-variant `LifeEnjoyment`
(`Healthcare_DP.py` lines 72-79) has no non-positive-investment guard; with
coefficients `alpha=1, beta=0, mu=1, c=1` it returns `1 - e ≠ 0` at
investment `-1 ≤ 0`, evaluating its formula on a non-positive investment. -/
theorem sigmoid_enjoyment_nonpositive_counterexample :
    (-1 : ℝ) ≤ 0 ∧ LifeEnjoymentSigmoid 1 0 1 1 (-1) 100 ≠ 0 := by
  have hexp : (1:ℝ) + 1 < Real.exp 1 :=
    Real.add_one_lt_exp (by norm_num : (1:ℝ) ≠ 0)
  refine ⟨by norm_num, fun hc => ?_⟩
  unfold LifeEnjoymentSigmoid at hc
  norm_num at hc
  nlinarith [hc, hexp]

/-- **C8 (amended).**  The NewDegen-variant regeneration and enjoyment
strategies return zero contribution for any investment `≤ 0`, short-circuiting
before their diminishing-returns formulas (and their divisions) are
evaluated; the sigmoid-variant strategy functions carry no such guard and
evaluate their formulas on every input (see the counterexample). -/
theorem newdegen_strategies_nonpositive_zero (d k j : ℚ)
    (investment health : ℤ) (h : investment ≤ 0) :
    HealthRegainedND d k investment health = 0
      ∧ LifeEnjoymentND j investment health = 0 := by
  unfold HealthRegainedND LifeEnjoymentND
  rw [if_pos h, if_pos h]
  exact ⟨rfl, rfl⟩

/-- Witness for the amended C8 at the coefficients the NewDegen `main` uses
(`d=10, k=50, j=50`) and investment `-3`. -/
theorem newdegen_strategies_nonpositive_zero_witness :
    (-3 : ℤ) ≤ 0 ∧ HealthRegainedND 10 50 (-3) 85 = 0
      ∧ LifeEnjoymentND 50 (-3) 85 = 0 := by
  obtain ⟨h1, h2⟩ := newdegen_strategies_nonpositive_zero 10 50 50 (-3) 85
    (by decide)
  exact ⟨by decide, h1, h2⟩

/-! ### The deviation analyzer

`HealthCareDP.AnalyzeStrat` of `Healthcare_DP.py` (lines 297-320), up to the
CSV serialization (out-of-scope I/O).  All Python list indices the code forms
are modeled by `List.get?`, so a raised `IndexError` would surface as `none`;
the `float` division is `pyDiv`, so a `ZeroDivisionError` surfaces as
`none`. -/

/-- One entry of `AnalyzeStrat`'s `output` list:
`[alternate[i], strategy[i+1][0], remaining, losses[i], cumsum, strategy[i],
earned]`. -/
structure AnalyzeRow where
  opt : DetResult
  realizedState : DPState
  remainingAvail : ℚ
  loss : ℚ
  accumulatedLoss : ℚ
  realized : DPState × ℚ
  earned : ℚ
  deriving DecidableEq, Repr

/-- The pure core of `AnalyzeStrat`: re-solve each observed state
(`alternate`), form the normalized per-round losses, and collect one output
row per analyzed round. -/
def analyzeCore (regen : ℤ → ℤ) (enjoy : ℤ → ℤ → ℚ) (degen : ℤ → ℤ → ℤ)
    (harvest : ℤ → ℤ) (numRounds : ℤ) (strategy : List (DPState × ℚ)) :
    Option (List AnalyzeRow) :=
  let alternate := strategy.dropLast.map
    (fun pr => SigSolve regen enjoy degen harvest numRounds pr.1)
  (do
    let losses ← (List.range (strategy.length - 2)).mapM (fun i => do
      let ai1 ← alternate.get? (i + 1)
      let si1 ← strategy.get? (i + 1)
      let si2 ← strategy.get? (i + 2)
      let ai ← alternate.get? i
      let a0 ← alternate.get? 0
      pyDiv ((ai1.val + (si1.2 - si2.2)) - ai.val) a0.val)
    let output ← (List.range (alternate.length - 1)).mapM (fun i => do
      let ai ← alternate.get? i
      let ai1 ← alternate.get? (i + 1)
      let si ← strategy.get? i
      let si1 ← strategy.get? (i + 1)
      let si2 ← strategy.get? (i + 2)
      let li ← losses.get? i
      pure (⟨ai, si1.1, ai1.val + (si1.2 - si2.2), li,
        (losses.take (i + 1)).sum, si, si.2 - si1.2⟩ : AnalyzeRow))
    pure output)

/-! ### Resource monotonicity (C5) -/

theorem mem_stateEnum {regen : ℤ → ℤ} {enjoy : ℤ → ℤ → ℚ} {ns : DPState}
    {x : DPState × ℚ} :
    x ∈ StateEnum regen enjoy ns
      ↔ ∃ inv ∈ InvestmentEnum regen ns.cash, x = Invest regen enjoy ns inv := by
  unfold StateEnum
  rw [mem_pyDedup]
  simp only [List.mem_map]
  constructor
  · rintro ⟨inv, hmem, rfl⟩
    exact ⟨inv, hmem, rfl⟩
  · rintro ⟨inv, hmem, rfl⟩
    exact ⟨inv, hmem, rfl⟩

/-- Every enumerated candidate's total value bounds the solver value from
below at a non-terminal state. -/
theorem sigSolve_val_lower (regen : ℤ → ℤ) (enjoy : ℤ → ℤ → ℚ)
    (degen : ℤ → ℤ → ℤ) (harvest : ℤ → ℤ) (numRounds : ℤ) (t : DPState)
    (hterm : ¬(numRounds < (Transition degen harvest t).period
        ∨ (Transition degen harvest t).health ≤ 0)) :
    ∀ c ∈ StateEnum regen enjoy (Transition degen harvest t),
      c.2 + (SigSolve regen enjoy degen harvest numRounds c.1).val
        ≤ (SigSolve regen enjoy degen harvest numRounds t).val := by
  intro c hc
  have hupper := runLoop_upper
    (fun d => (SigSolve regen enjoy degen harvest numRounds d).val)
    (StateEnum regen enjoy (Transition degen harvest t)) none c hc
  rw [sigSolve_eq regen enjoy degen harvest numRounds t, if_neg hterm]
  rcases runLoop_none_or
      (fun d => (SigSolve regen enjoy degen harvest numRounds d).val)
      (StateEnum regen enjoy (Transition degen harvest t)) with hnone | hsome
  · rw [hnone] at hupper ⊢
    exact hupper
  · obtain ⟨x, _, hres⟩ := hsome
    rw [hres] at hupper ⊢
    exact hupper

/-- Monotonicity induction: weakly more health and weakly more cash at the
same period never decrease the sigmoid-variant solver value.  The extra cash
of the richer state is mimicked by moving it into consumption-expenditure,
which stays inside the plateau-pruned window (the retained-health-expenditure
scan `prevAfter` does not depend on the currency amount). -/
theorem sigSolve_val_mono_aux (regen : ℤ → ℤ) (enjoy : ℤ → ℤ → ℚ)
    (degen : ℤ → ℤ → ℤ) (harvest : ℤ → ℤ) (numRounds : ℤ)
    (Hdeg : ∀ h1 h2 r, h1 ≤ h2 → degen h1 r ≤ degen h2 r)
    (Hharv : ∀ h1 h2, h1 ≤ h2 → harvest h1 ≤ harvest h2)
    (Henj : ∀ i1 i2 h1 h2, i1 ≤ i2 → h1 ≤ h2 → enjoy i1 h1 ≤ enjoy i2 h2) :
    ∀ n : ℕ, ∀ s t : DPState, solveFuel numRounds s ≤ n →
      s.period = t.period → s.health ≤ t.health → s.cash ≤ t.cash →
      (SigSolve regen enjoy degen harvest numRounds s).val
        ≤ (SigSolve regen enjoy degen harvest numRounds t).val := by
  have hnonneg : ∀ u : DPState,
      0 ≤ (SigSolve regen enjoy degen harvest numRounds u).val :=
    detSolve_val_nonneg (stateEnum_period regen enjoy) (le_of_eq rfl)
  intro n
  induction n with
  | zero =>
    intro s t hn hper hh hc
    have hterm : numRounds < (Transition degen harvest s).period := by
      unfold solveFuel at hn
      show numRounds < s.period + 1
      omega
    rw [sigSolve_eq regen enjoy degen harvest numRounds s, if_pos (Or.inl hterm)]
    exact hnonneg t
  | succ n ih =>
    intro s t hn hper hh hc
    have hper2 : (Transition degen harvest s).period
        = (Transition degen harvest t).period := by
      show s.period + 1 = t.period + 1
      omega
    have hh2 : (Transition degen harvest s).health
        ≤ (Transition degen harvest t).health := by
      show degen s.health (s.period + 1) ≤ degen t.health (t.period + 1)
      rw [hper]
      exact Hdeg _ _ _ hh
    have hc2 : (Transition degen harvest s).cash
        ≤ (Transition degen harvest t).cash := by
      show s.cash + harvest s.health ≤ t.cash + harvest t.health
      have := Hharv _ _ hh
      omega
    by_cases hterm : numRounds < (Transition degen harvest s).period
        ∨ (Transition degen harvest s).health ≤ 0
    · rw [sigSolve_eq regen enjoy degen harvest numRounds s, if_pos hterm]
      exact hnonneg t
    · have htermt : ¬(numRounds < (Transition degen harvest t).period
          ∨ (Transition degen harvest t).health ≤ 0) := by
        push_neg at hterm ⊢
        constructor
        · rw [← hper2]
          exact hterm.1
        · calc (0:ℤ) < (Transition degen harvest s).health := hterm.2
            _ ≤ _ := hh2
      rw [sigSolve_eq regen enjoy degen harvest numRounds s, if_neg hterm]
      rcases runLoop_none_or
          (fun c => (SigSolve regen enjoy degen harvest numRounds c).val)
          (StateEnum regen enjoy (Transition degen harvest s)) with hnone | hsome
      · rw [hnone]
        exact hnonneg t
      · obtain ⟨x, hx, hres⟩ := hsome
        rw [hres]
        show x.2 + (SigSolve regen enjoy degen harvest numRounds x.1).val
          ≤ (SigSolve regen enjoy degen harvest numRounds t).val
        obtain ⟨inv, hinv, rfl⟩ := mem_stateEnum.mp hx
        obtain ⟨he0, heC, hret, hwlo, hwhi, hbank⟩ :=
          (mem_invEnum_full regen
            (Transition degen harvest s).cash inv).mp hinv
        obtain ⟨hwlo1, hwlo2⟩ := max_le_iff.mp hwlo
        have hinv2 : (⟨inv.healthExpenditure,
            inv.lifeExpenditure + ((Transition degen harvest t).cash
              - (Transition degen harvest s).cash),
            inv.cashRemaining⟩ : Investment)
            ∈ InvestmentEnum regen (Transition degen harvest t).cash := by
          rw [mem_invEnum_full]
          dsimp only
          refine ⟨he0, by omega, hret, ?_, by omega, by omega⟩
          exact max_le_iff.mpr ⟨by omega, by omega⟩
        have hx2 : Invest regen enjoy (Transition degen harvest t)
              ⟨inv.healthExpenditure,
                inv.lifeExpenditure + ((Transition degen harvest t).cash
                  - (Transition degen harvest s).cash),
                inv.cashRemaining⟩
            ∈ StateEnum regen enjoy (Transition degen harvest t) :=
          mem_stateEnum.mpr ⟨_, hinv2, rfl⟩
        have hlow := sigSolve_val_lower regen enjoy degen harvest numRounds t
          htermt _ hx2
        refine le_trans ?_ hlow
        unfold Invest
        simp only
        have hend : min 100 ((Transition degen harvest s).health
              + regen inv.healthExpenditure)
            ≤ min 100 ((Transition degen harvest t).health
              + regen inv.healthExpenditure) :=
          min_le_min (le_refl _) (by omega)
        have henj := Henj inv.lifeExpenditure
          (inv.lifeExpenditure + ((Transition degen harvest t).cash
            - (Transition degen harvest s).cash))
          (min 100 ((Transition degen harvest s).health
            + regen inv.healthExpenditure))
          (min 100 ((Transition degen harvest t).health
            + regen inv.healthExpenditure))
          (by omega) hend
        have hfut : (SigSolve regen enjoy degen harvest numRounds
              ⟨(Transition degen harvest s).period,
                min 100 ((Transition degen harvest s).health
                  + regen inv.healthExpenditure),
                inv.cashRemaining⟩).val
            ≤ (SigSolve regen enjoy degen harvest numRounds
              ⟨(Transition degen harvest t).period,
                min 100 ((Transition degen harvest t).health
                  + regen inv.healthExpenditure),
                inv.cashRemaining⟩).val := by
          have hsp : s.period + 1 ≤ numRounds := by
            rcases not_or.mp hterm with ⟨h1, _⟩
            have hT : (Transition degen harvest s).period = s.period + 1 := rfl
            omega
          refine ih _ _ ?_ ?_ hend (le_refl _)
          · unfold solveFuel at hn ⊢
            have hT : (Transition degen harvest s).period = s.period + 1 := rfl
            simp only
            omega
          · simp only
            exact hper2
        exact add_le_add henj hfut

/-- **C5.**  For any two starting states identical except that one has a
strictly greater starting resource — same coefficients (here: an arbitrary
fixed strategy-function set with the monotonicity the spec ascribes to the
formulas: degeneration and harvest non-decreasing in health, enjoyment
non-decreasing in investment and health) and the same enumeration order —
the optimal total value `Solve` computes from the higher-resource state is at
least the optimal total value from the lower-resource state. -/
theorem solve_resource_monotone (regen : ℤ → ℤ) (enjoy : ℤ → ℤ → ℚ)
    (degen : ℤ → ℤ → ℤ) (harvest : ℤ → ℤ) (numRounds : ℤ)
    (Hdeg : ∀ h1 h2 r, h1 ≤ h2 → degen h1 r ≤ degen h2 r)
    (Hharv : ∀ h1 h2, h1 ≤ h2 → harvest h1 ≤ harvest h2)
    (Henj : ∀ i1 i2 h1 h2, i1 ≤ i2 → h1 ≤ h2 → enjoy i1 h1 ≤ enjoy i2 h2)
    (s t : DPState) (hper : s.period = t.period) (hh : s.health < t.health)
    (hc : s.cash = t.cash) :
    (SigSolve regen enjoy degen harvest numRounds s).val
      ≤ (SigSolve regen enjoy degen harvest numRounds t).val :=
  sigSolve_val_mono_aux regen enjoy degen harvest numRounds Hdeg Hharv Henj
    (solveFuel numRounds s) s t (le_refl _) hper (le_of_lt hh) (le_of_eq hc)

/-- Witness for C5 with the toy monotone strategy set at health 1 versus 2. -/
theorem solve_resource_monotone_witness :
    (∀ h1 h2 r : ℤ, h1 ≤ h2 → degKeep h1 r ≤ degKeep h2 r)
    ∧ (∀ h1 h2 : ℤ, h1 ≤ h2 → harvZero h1 ≤ harvZero h2)
    ∧ (∀ i1 i2 h1 h2 : ℤ, i1 ≤ i2 → h1 ≤ h2 → enjZero i1 h1 ≤ enjZero i2 h2)
    ∧ (DPState.mk 0 1 0).period = (DPState.mk 0 2 0).period
    ∧ (DPState.mk 0 1 0).health < (DPState.mk 0 2 0).health
    ∧ (DPState.mk 0 1 0).cash = (DPState.mk 0 2 0).cash
    ∧ (SigSolve regZero enjZero degKeep harvZero 1 ⟨0, 1, 0⟩).val
        ≤ (SigSolve regZero enjZero degKeep harvZero 1 ⟨0, 2, 0⟩).val :=
  ⟨fun _ _ _ h => h, fun _ _ _ => le_refl 0, fun _ _ _ _ _ _ => le_refl 0,
    rfl, by decide, rfl,
    solve_resource_monotone regZero enjZero degKeep harvZero 1
      (fun _ _ _ h => h) (fun _ _ _ => le_refl 0)
      (fun _ _ _ _ _ _ => le_refl 0) ⟨0, 1, 0⟩ ⟨0, 2, 0⟩ rfl (by decide) rfl⟩

/-! ### Evaluating the analyzer on a truncated trajectory (C9)

A 4-round toy instance (constant enjoyment 1 per round, stable health, no
harvest) evaluated along the chain of states `(k, 50, 0)`. -/

theorem sigEvalPeriod4 : SigSolve regZero enjOne degKeep harvZero 4 ⟨4, 50, 0⟩
    = .triple ⟨5, 50, 0⟩ 0 0 := by
  rw [sigSolve_eq]
  norm_num [Transition, degKeep, harvZero]

theorem sigEvalPeriod3 : SigSolve regZero enjOne degKeep harvZero 4 ⟨3, 50, 0⟩
    = .triple ⟨4, 50, 0⟩ 1 1 := by
  rw [sigSolve_eq]
  have hterm : ¬((4:ℤ) < (Transition degKeep harvZero ⟨3, 50, 0⟩).period
      ∨ (Transition degKeep harvZero ⟨3, 50, 0⟩).health ≤ 0) := by decide
  rw [if_neg hterm]
  have hse : StateEnum regZero enjOne (Transition degKeep harvZero ⟨3, 50, 0⟩)
      = [(⟨4, 50, 0⟩, (1:ℚ))] := by decide
  rw [hse]
  simp only [runLoop, sigEvalPeriod4, DetResult.val, optVal]
  norm_num [pyRound1, pyRoundInt]

theorem sigEvalPeriod2 : SigSolve regZero enjOne degKeep harvZero 4 ⟨2, 50, 0⟩
    = .triple ⟨3, 50, 0⟩ 2 1 := by
  rw [sigSolve_eq]
  have hterm : ¬((4:ℤ) < (Transition degKeep harvZero ⟨2, 50, 0⟩).period
      ∨ (Transition degKeep harvZero ⟨2, 50, 0⟩).health ≤ 0) := by decide
  rw [if_neg hterm]
  have hse : StateEnum regZero enjOne (Transition degKeep harvZero ⟨2, 50, 0⟩)
      = [(⟨3, 50, 0⟩, (1:ℚ))] := by decide
  rw [hse]
  simp only [runLoop, sigEvalPeriod3, DetResult.val, optVal]
  norm_num [pyRound1, pyRoundInt]

theorem sigEvalPeriod1 : SigSolve regZero enjOne degKeep harvZero 4 ⟨1, 50, 0⟩
    = .triple ⟨2, 50, 0⟩ 3 1 := by
  rw [sigSolve_eq]
  have hterm : ¬((4:ℤ) < (Transition degKeep harvZero ⟨1, 50, 0⟩).period
      ∨ (Transition degKeep harvZero ⟨1, 50, 0⟩).health ≤ 0) := by decide
  rw [if_neg hterm]
  have hse : StateEnum regZero enjOne (Transition degKeep harvZero ⟨1, 50, 0⟩)
      = [(⟨2, 50, 0⟩, (1:ℚ))] := by decide
  rw [hse]
  simp only [runLoop, sigEvalPeriod2, DetResult.val, optVal]
  norm_num [pyRound1, pyRoundInt]

theorem sigEvalPeriod0 : SigSolve regZero enjOne degKeep harvZero 4 ⟨0, 50, 0⟩
    = .triple ⟨1, 50, 0⟩ 4 1 := by
  rw [sigSolve_eq]
  have hterm : ¬((4:ℤ) < (Transition degKeep harvZero ⟨0, 50, 0⟩).period
      ∨ (Transition degKeep harvZero ⟨0, 50, 0⟩).health ≤ 0) := by decide
  rw [if_neg hterm]
  have hse : StateEnum regZero enjOne (Transition degKeep harvZero ⟨0, 50, 0⟩)
      = [(⟨1, 50, 0⟩, (1:ℚ))] := by decide
  rw [hse]
  simp only [runLoop, sigEvalPeriod1, DetResult.val, optVal]
  norm_num [pyRound1, pyRoundInt]

/-- **C9 (code evaluation).**  Fed a 3-entry observed trajectory against a
4-round horizon (BatchRun supplies `horizon + 2` entries; anything shorter is
a truncated input), `AnalyzeStrat`'s computation raises no error at all: every
index it forms stays in range of the short input and it silently emits
`max(len - 2, 0) = 1` analysis rows instead of failing with a data error. -/
theorem analyzeStrat_silent_truncation :
    analyzeCore regZero enjOne degKeep harvZero 4
        [(⟨0, 50, 0⟩, 30), (⟨1, 50, 0⟩, 20), (⟨2, 50, 0⟩, 10)]
      = some [⟨.triple ⟨1, 50, 0⟩ 4 1, ⟨1, 50, 0⟩, 13, 9/4, 9/4,
          (⟨0, 50, 0⟩, 30), 10⟩] := by
  unfold analyzeCore
  simp only [List.dropLast, List.map, sigEvalPeriod0, sigEvalPeriod1]
  simp only [List.length, List.range, List.range.loop, List.mapM,
    List.mapM.loop, List.get?, DetResult.val, pyDiv, Option.bind]
  norm_num

/-! ### The stochastic FindStrat (C7)

`HealthCareDP.FindStrat` of `HealthcareDP_Stoch.py` (lines 262-283).  Inside
the loop, `cur = self.Solve(cur)[0][0]` never raises on a `DPState` input
(`Solve(cur)[0]` is the normal-branch best — a `(state, total, immediate)`
tuple whose `[0]` is the winning state, the untouched initialization
`DPState(0, 0, -1)` whose `[0]` is the int `0`, or a terminal `newState`
whose `[0]` is the int period).  The subsequent
`strategy.append(cur[0][0])`, however, subscripts an integer in every one of
these shapes — `DPState[0]` is the integer period field — and so raises
`TypeError` on the very first iteration. -/

/-- A dynamically typed Python value flowing through the stochastic
`FindStrat` loop: a `DPState` or a number. -/
inductive PyV where
  | st (s : DPState)
  | num (q : ℚ)
  deriving DecidableEq, Repr

/-- Python `v[0]`: field 0 of a `DPState` is its integer period;
subscripting a number raises `TypeError` (`none`). -/
def pyIndex0 : PyV → Option PyV
  | .st s => some (.num (s.period : ℚ))
  | .num _ => none

/-- `self.Solve(cur)[0][0]` on a `DPState`-valued `cur`: never raises, but
yields a number rather than a state except when the normal-branch loop
fired. -/
def stochFindStep (regen : ℤ → ℤ) (enjoy : ℤ → ℤ → ℚ) (degen : ℤ → ℤ → ℤ)
    (harvest : ℤ → ℤ) (numRounds : ℤ) (p : ℚ) (hitSize : ℤ) (cur : DPState) :
    PyV :=
  match StochSolve regen enjoy degen harvest numRounds p hitSize cur with
  | .term st => .num (st.period : ℚ)
  | .node none _ _ => .num 0
  | .node (some (st, _, _)) _ _ => .st st

/-- `strategy.append(cur[0][0])`: subscript `cur` twice. -/
def stochAppendVal (v : PyV) : Option PyV := (pyIndex0 v).bind pyIndex0

theorem stochAppendVal_none : ∀ v, stochAppendVal v = none
  | .st _ => rfl
  | .num _ => rfl

/-- The stochastic `FindStrat` loop: `range(int(numRounds))` iterations, each
updating `cur` (the protected assignment) and then appending `cur[0][0]`
(unprotected); a raised exception aborts the whole call (`none`). -/
def stochFindStratGo (regen : ℤ → ℤ) (enjoy : ℤ → ℤ → ℚ) (degen : ℤ → ℤ → ℤ)
    (harvest : ℤ → ℤ) (numRounds : ℤ) (p : ℚ) (hitSize : ℤ) :
    ℕ → PyV → Option (List PyV)
  | 0, _ => some []
  | n + 1, cur =>
    match cur with
    | .st c =>
      match stochAppendVal
          (stochFindStep regen enjoy degen harvest numRounds p hitSize c) with
      | none => none
      | some v =>
        (stochFindStratGo regen enjoy degen harvest numRounds p hitSize n
          (stochFindStep regen enjoy degen harvest numRounds p hitSize c)).map
          (v :: ·)
    | .num _ => none

/-- `HealthCareDP.FindStrat` of the stochastic variant. -/
def StochFindStrat (regen : ℤ → ℤ) (enjoy : ℤ → ℤ → ℚ) (degen : ℤ → ℤ → ℤ)
    (harvest : ℤ → ℤ) (numRounds : ℤ) (p : ℚ) (hitSize : ℤ) (s : DPState) :
    Option (List PyV) :=
  stochFindStratGo regen enjoy degen harvest numRounds p hitSize
    numRounds.toNat (.st s)

/-- **C7 (code evaluation).**  The stochastic `FindStrat` never returns a
trajectory: on any run with at least one round it aborts with `TypeError` on
its first `strategy.append(cur[0][0])`, here evaluated at the starting state
`(0, 85, 0)` of a two-round toy instance. -/
theorem stoch_findStrat_crashes :
    StochFindStrat regZero enjOne degKeep harvZero 2 (1/2) 10 ⟨0, 85, 0⟩
      = none := by
  show stochFindStratGo regZero enjOne degKeep harvZero 2 (1/2) 10
    (Nat.succ 1) (.st ⟨0, 85, 0⟩) = none
  simp only [stochFindStratGo, stochAppendVal_none]
